import Mathlib

/-!
Verification of the DynamoDB key-value storage adapter
(`linera-views/src/dynamo_db.rs`).

The Rust source is shallowly embedded: byte strings become `List Nat`,
attribute maps (`HashMap<String, AttributeValue>`) become association
lists without duplicate attribute names, the backing DynamoDB service is
modelled explicitly (a table of items sorted by the sort key, paginated
queries with continuation tokens, point reads, batched writes), and the
async methods become pure functions from the service state.
-/

deriving instance DecidableEq for Except

namespace DynamoDb

/-- Byte strings (`Vec<u8>` / `&[u8]` in the source): logical keys and values. -/
abbrev Bytes := List Nat

/-- Strict lexicographic order on byte strings: the order in which the backing
service keeps items of one partition, sorted by their binary sort key. -/
def bytesLt : Bytes → Bytes → Bool
  | _, [] => false
  | [], _ :: _ => true
  | a :: as1, b :: bs1 => a < b || (a == b && bytesLt as1 bs1)

/-- The attribute-value type of the backing service
(`aws_sdk_dynamodb::model::AttributeValue`).  The adapter only ever inspects
the constructor tag, and only the `B` (binary blob) constructor's payload;
the `L` (list) and `M` (map) payloads are therefore not modelled, and the
SDK's non-exhaustive extra variants are collapsed into `Unknown`. -/
inductive AttributeValue where
  | B (blob : Bytes)
  | Bool (b : Bool)
  | Bs (blobs : List Bytes)
  | L
  | M
  | N (num : String)
  | Ns (nums : List String)
  | Null (b : Bool)
  | S (str : String)
  | Ss (strs : List String)
  | Unknown
  deriving DecidableEq, Repr

/-- Attribute maps (`HashMap<String, AttributeValue>`): association lists.
All maps built or consumed by the adapter have pairwise-distinct attribute
names, so the association-list representation is faithful. -/
abbrev AttrMap := List (String × AttributeValue)

/-- `HashMap::get`. -/
def AttrMap.get (m : AttrMap) (attr : String) : Option AttributeValue :=
  (m.find? (fun p => p.1 == attr)).map (fun p => p.2)

/-- The map left behind by `HashMap::remove`. -/
def AttrMap.removeAttr (m : AttrMap) (attr : String) : AttrMap :=
  m.filter (fun p => !(p.1 == attr))

/-- The attribute name of the partition key. -/
def PARTITION_ATTRIBUTE : String := "item_partition"

/-- A dummy value to use as the partition key. -/
def DUMMY_PARTITION_KEY : Bytes := [0]

/-- The attribute name of the primary key (used as a sort key). -/
def KEY_ATTRIBUTE : String := "item_key"

/-- The attribute name of the table value blob. -/
def VALUE_ATTRIBUTE : String := "item_value"

/-- Errors that occur when using the DynamoDB context
(`DynamoDbContextError`).  The SDK transport errors carry an opaque
description. -/
inductive DynamoDbContextError where
  | Put (msg : String)
  | Get (msg : String)
  | Delete (msg : String)
  | BatchWriteItem (msg : String)
  | Query (msg : String)
  | MissingKey
  | WrongKeyType (desc : String)
  | MissingValue
  | WrongValueType (desc : String)
  | NotFound (msg : String)
  deriving DecidableEq, Repr

/-- `DynamoDbContextError::type_description_of`.  The source declares the
`B` case `unreachable!` (the function is only invoked on values already
known not to be binary blobs); the arbitrary string returned for `B` here
is never exercised by the call sites. -/
def type_description_of : AttributeValue → String
  | .B _ => "a binary blob"
  | .Bool _ => "a boolean"
  | .Bs _ => "a list of binary blobs"
  | .L => "a list"
  | .M => "a map"
  | .N _ => "a number"
  | .Ns _ => "a list of numbers"
  | .Null _ => "a null value"
  | .S _ => "a string"
  | .Ss _ => "a list of strings"
  | .Unknown => "an unknown type"

/-- `DynamoDbContextError::wrong_key_type`. -/
def wrong_key_type (value : AttributeValue) : DynamoDbContextError :=
  .WrongKeyType (type_description_of value)

/-- `DynamoDbContextError::wrong_value_type`. -/
def wrong_value_type (value : AttributeValue) : DynamoDbContextError :=
  .WrongValueType (type_description_of value)

/-- Is this attribute value a binary blob (`AttributeValue::B`)? -/
def isBinaryAttr : AttributeValue → Bool
  | .B _ => true
  | _ => false

/-- `DynamoDbClient::build_key`: the two-attribute (partition, key)
representation for lookups and deletes. -/
def build_key (key : Bytes) : AttrMap :=
  [(PARTITION_ATTRIBUTE, AttributeValue.B DUMMY_PARTITION_KEY),
   (KEY_ATTRIBUTE, AttributeValue.B key)]

/-- `DynamoDbClient::build_key_value`: the three-attribute representation
for puts. -/
def build_key_value (key : Bytes) (value : Bytes) : AttrMap :=
  [(PARTITION_ATTRIBUTE, AttributeValue.B DUMMY_PARTITION_KEY),
   (KEY_ATTRIBUTE, AttributeValue.B key),
   (VALUE_ATTRIBUTE, AttributeValue.B value)]

/-- `DynamoDbClient::extract_key`.  The source slices `&blob[prefix_len..]`,
which requires `prefix_len` to be at most the key's length; every call site
strips a prefix that the key is known to begin with, and `List.drop` agrees
with the slice on that domain. -/
def extract_key (prefix_len : Nat) (attributes : AttrMap) :
    Except DynamoDbContextError Bytes :=
  match attributes.get KEY_ATTRIBUTE with
  | none => .error .MissingKey
  | some (.B blob) => .ok (blob.drop prefix_len)
  | some key => .error (wrong_key_type key)

/-- `DynamoDbClient::extract_value`. -/
def extract_value (attributes : AttrMap) : Except DynamoDbContextError Bytes :=
  match attributes.get VALUE_ATTRIBUTE with
  | none => .error .MissingValue
  | some (.B blob) => .ok blob
  | some value => .error (wrong_value_type value)

/-- `DynamoDbClient::extract_value_owned`.  The source takes
`&mut HashMap<..>` and removes the value attribute from it; the embedding
returns the result together with the map left behind. -/
def extract_value_owned (attributes : AttrMap) :
    Except DynamoDbContextError Bytes × AttrMap :=
  match attributes.get VALUE_ATTRIBUTE with
  | none => (.error .MissingValue, attributes)
  | some value =>
    match value with
    | .B blob => (.ok blob, attributes.removeAttr VALUE_ATTRIBUTE)
    | v => (.error (wrong_value_type v), attributes.removeAttr VALUE_ATTRIBUTE)

/-- `DynamoDbClient::extract_key_value`. -/
def extract_key_value (prefix_len : Nat) (attributes : AttrMap) :
    Except DynamoDbContextError (Bytes × Bytes) :=
  match extract_key prefix_len attributes with
  | .error e => .error e
  | .ok key =>
    match extract_value attributes with
    | .error e => .error e
    | .ok value => .ok (key, value)

/-- `DynamoDbClient::extract_key_value_owned`. -/
def extract_key_value_owned (prefix_len : Nat) (attributes : AttrMap) :
    Except DynamoDbContextError (Bytes × Bytes) × AttrMap :=
  match extract_key prefix_len attributes with
  | .error e => (.error e, attributes)
  | .ok key =>
    match extract_value_owned attributes with
    | (.ok value, m) => (.ok (key, value), m)
    | (.error e, m) => (.error e, m)

/-! ## The backing service

The table holds items addressed by their binary sort key (every item of this
adapter shares the single dummy partition key).  The service keeps the items
of a partition sorted by sort key; queries return them in ascending order,
one bounded page at a time, together with a continuation token (the last
evaluated key) exactly when more matches remain. -/

/-- The backing table state: items indexed by their sort key.  Theorems
about scans assume the service invariants `storeSorted` (ascending sort
key order) and `storeWellFormed` (every item was written by this adapter). -/
abbrev Store := List (Bytes × AttrMap)

/-- Service invariant: items are kept in ascending sort-key order
(in particular keys are pairwise distinct). -/
def storeSorted (store : Store) : Prop :=
  store.Pairwise (fun a b => bytesLt a.1 b.1 = true)

/-- The binary value blob stored in an item, if any. -/
def storedValue (m : AttrMap) : Bytes :=
  match AttrMap.get m VALUE_ATTRIBUTE with
  | some (.B v) => v
  | _ => []

/-- Service invariant for scans: every item has the three-attribute shape
written by `build_key_value` (§3 of the design: every retrievable item has
a key attribute and a binary value attribute). -/
def storeWellFormed (store : Store) : Prop :=
  ∀ p ∈ store, p.2 = build_key_value p.1 (storedValue p.2)

instance (store : Store) : Decidable (storeSorted store) :=
  inferInstanceAs (Decidable (List.Pairwise _ store))

instance (store : Store) : Decidable (storeWellFormed store) :=
  inferInstanceAs (Decidable (∀ p ∈ store, p.2 = build_key_value p.1 (storedValue p.2)))

/-- The items whose sort key begins with `keyPref`, in table order
(the matches of the key condition
`item_partition = :partition and begins_with(item_key, :prefix)`). -/
def matching (store : Store) (keyPref : Bytes) : Store :=
  store.filter (fun kv => keyPref.isPrefixOf kv.1)

/-- The projection expression sent with a query: `"item_key"` for key-only
scans, `"item_key, item_value"` (`KEY_VALUE_ATTRIBUTE`) for key-value scans. -/
inductive Projection where
  | keyOnly
  | keyValue
  deriving DecidableEq, Repr

/-- The attributes of an item kept by a projection expression. -/
def project : Projection → AttrMap → AttrMap
  | .keyOnly, m => m.filter (fun p => p.1 == KEY_ATTRIBUTE)
  | .keyValue, m => m.filter (fun p => p.1 == KEY_ATTRIBUTE || p.1 == VALUE_ATTRIBUTE)

/-- A query response (`aws_sdk_dynamodb::output::QueryOutput`): one page of
projected items plus the optional continuation token.  The token is the
last evaluated key; the adapter treats it as opaque and passes it back as
the exclusive start key of the next query. -/
structure QueryOutput where
  items : List AttrMap
  last_evaluated_key : Option Bytes
  deriving DecidableEq, Repr

/-- `DynamoDbClient::get_query_output`: one page of the range query, as
answered by the backing service.  `pageLimit` is the service's page bound
(at least 1); matches resume strictly after the exclusive start key; the
token is returned exactly when further matches remain. -/
def get_query_output (pageLimit : Nat) (store : Store) (proj : Projection)
    (keyPref : Bytes) (start_key : Option Bytes) : QueryOutput :=
  let remaining := match start_key with
    | none => matching store keyPref
    | some s => (matching store keyPref).filter (fun kv => bytesLt s kv.1)
  let page := remaining.take pageLimit
  { items := page.map (fun kv => project proj kv.2)
    last_evaluated_key :=
      if remaining.length ≤ pageLimit then none
      else page.getLast?.map (fun kv => kv.1) }

/-! ## The lazy key sequence (`DynamoDbKeys` / `DynamoDbKeyIterator`)

`DynamoDbKeyIterator::next` drains the items of the current response; when
the current response carried a `last_evaluated_key` and its items are
exhausted, it issues a new query carrying that token as the exclusive start
key and continues from the fresh response; when the current response
carried no token, exhausting its items ends the sequence. -/

/-- The cursor state of `DynamoDbKeyIterator`: the scan prefix and its
length, the continuation token of the current response, and the items of
the current response not yet consumed (the `iter` field). -/
structure DynamoDbKeyIterator where
  keyPrefix : Bytes
  prefixLen : Nat
  responseLast : Option Bytes
  rest : List AttrMap
  deriving DecidableEq, Repr

/-- The observable outcome of one `next()` call: the yielded element (none
means end of sequence), the successor cursor state, and the query issued
during the call, if any (scan prefix and exclusive start key). -/
structure KeyIterStep where
  yielded : Option (Except DynamoDbContextError Bytes)
  state : DynamoDbKeyIterator
  issued : Option (Bytes × Option Bytes)
  deriving DecidableEq, Repr

/-- `DynamoDbKeyIterator::next`. -/
def keyIterNext (pageLimit : Nat) (store : Store) (s : DynamoDbKeyIterator) :
    KeyIterStep :=
  match s.responseLast with
  | none =>
    match s.rest with
    | [] => ⟨none, s, none⟩
    | x :: xs => ⟨some (extract_key s.prefixLen x), { s with rest := xs }, none⟩
  | some tok =>
    match s.rest with
    | x :: xs => ⟨some (extract_key s.prefixLen x), { s with rest := xs }, none⟩
    | [] =>
      let out := get_query_output pageLimit store .keyOnly s.keyPrefix (some tok)
      match out.items with
      | [] => ⟨none, { s with responseLast := out.last_evaluated_key, rest := [] },
          some (s.keyPrefix, some tok)⟩
      | x :: xs => ⟨some (extract_key s.prefixLen x),
          { s with responseLast := out.last_evaluated_key, rest := xs },
          some (s.keyPrefix, some tok)⟩

/-- The handle returned by `find_keys_by_prefix`: the lazy key sequence
(`DynamoDbKeys`), holding the scan prefix and the shared client. -/
structure DynamoDbKeys where
  keyPrefix : Bytes
  deriving DecidableEq, Repr

/-- `DynamoDbClient::find_keys_by_prefix`. -/
def find_keys_by_pfx (keyPref : Bytes) : DynamoDbKeys :=
  ⟨keyPref⟩

/-- `DynamoDbKeys::iterator`: issues the first-page query and wraps its
response in the cursor.  Returns the initial cursor together with the query
issued (scan prefix, no exclusive start key).  (The source's
`find_keys_by_prefix` also runs a first-page query, but the declared
`DynamoDbKeys` struct holds only the prefix and the client, so only the
query run in `iterator()` feeds the cursor; the embedding issues the
initial query once, here.) -/
def keysIterator (pageLimit : Nat) (store : Store) (keys : DynamoDbKeys) :
    DynamoDbKeyIterator × (Bytes × Option Bytes) :=
  let response := get_query_output pageLimit store .keyOnly keys.keyPrefix none
  ({ keyPrefix := keys.keyPrefix
     prefixLen := keys.keyPrefix.length
     responseLast := response.last_evaluated_key
     rest := response.items },
   (keys.keyPrefix, none))

/-- Repeatedly call `next` on the cursor, collecting the yielded elements
and the queries issued, until the sequence ends or `fuel` runs out.  This is
what a `for` loop over the iterator observes; `fuel` only bounds the
recursion, any `fuel` larger than the number of matches is enough. -/
def keyIterRun (pageLimit : Nat) (store : Store) :
    Nat → DynamoDbKeyIterator →
      List (Except DynamoDbContextError Bytes) × List (Bytes × Option Bytes)
  | 0, _ => ([], [])
  | fuel + 1, s =>
    let step := keyIterNext pageLimit store s
    match step.yielded with
    | none => ([], step.issued.toList)
    | some r =>
      let rest2 := keyIterRun pageLimit store fuel step.state
      (r :: rest2.1, step.issued.toList ++ rest2.2)

/-- Fully consume `find_keys_by_prefix(keyPref)`: the yielded elements and
all queries issued (the initial one included). -/
def drainKeys (pageLimit fuel : Nat) (store : Store) (keyPref : Bytes) :
    List (Except DynamoDbContextError Bytes) × List (Bytes × Option Bytes) :=
  let init := keysIterator pageLimit store (find_keys_by_pfx keyPref)
  let run := keyIterRun pageLimit store fuel init.1
  (run.1, init.2 :: run.2)

/-! ## The key-value sequence (`DynamoDbKeyValues`)

Unlike the key sequence, `DynamoDbKeyValues` holds a single `QueryOutput`
and both of its iterators (`DynamoDbKeyValueIterator`,
`DynamoDbKeyValueIteratorOwned`) only walk the items of that one response:
no continuation query is ever issued. -/

/-- The handle returned by `find_key_values_by_prefix`
(`DynamoDbKeyValues`): the prefix length and the first-page response. -/
structure DynamoDbKeyValues where
  prefixLen : Nat
  response : QueryOutput
  deriving DecidableEq, Repr

/-- `DynamoDbClient::find_key_values_by_prefix`: issues the first-page
query and stores its response. -/
def find_key_values_by_pfx (pageLimit : Nat) (store : Store) (keyPref : Bytes) :
    DynamoDbKeyValues :=
  { prefixLen := keyPref.length
    response := get_query_output pageLimit store .keyValue keyPref none }

/-- Fully consume `DynamoDbKeyValueIterator` (the borrowing iterator):
it maps `extract_key_value` over the items of the stored response. -/
def keyValuesIterate (kvs : DynamoDbKeyValues) :
    List (Except DynamoDbContextError (Bytes × Bytes)) :=
  kvs.response.items.map (fun m => extract_key_value kvs.prefixLen m)

/-- Fully consume `DynamoDbKeyValueIteratorOwned` (the owned iterator):
it maps `extract_key_value_owned` over the items of the stored response. -/
def keyValuesIterateOwned (kvs : DynamoDbKeyValues) :
    List (Except DynamoDbContextError (Bytes × Bytes)) :=
  kvs.response.items.map (fun m => (extract_key_value_owned kvs.prefixLen m).1)

/-- The continuation-token invariant of the key cursor: when the current
response carried no token, no further matches remain; when it carried the
token `tok`, what remains after the current page are exactly the matches
strictly above `tok`. -/
def tokenInv (store : Store) (pre : Bytes) : Option Bytes → Store → Prop
  | none, rem => rem = []
  | some tok, rem => rem = (matching store pre).filter (fun kv => bytesLt tok kv.1)

/-- A two-item store used to exhibit that the key-value sequence stops
after the first page. -/
def cexStore : Store :=
  [([0], build_key_value [0] [7]), ([1], build_key_value [1] [8])]

/-- A three-item store used to exercise a two-page scan. -/
def w1store : Store :=
  [([0], build_key_value [0] [3]), ([0, 1], build_key_value [0, 1] [4]),
   ([2], build_key_value [2] [5])]

/-! ## Write batches (`common::Batch` and `write_batch`) -/

/-- `common::WriteOperation`. -/
inductive WriteOperation where
  | Delete (key : Bytes)
  | Put (key : Bytes) (value : Bytes)
  | DeletePrefix (keyPref : Bytes)
  deriving DecidableEq, Repr

/-- `common::Batch`: an ordered list of write operations. -/
structure Batch where
  operations : List WriteOperation
  deriving DecidableEq, Repr

/-- Modelled from the spec: `Batch::simplify` lives in `common.rs`, which is
not part of the sampled sources.  Per §3/§4.4 of the design, redundant or
conflicting operations on the same key are collapsed with last write wins
per key, a later delete removes an earlier put, and overlapping
`Put`/`Delete`/`DeletePrefix` operations on the same key are resolved in
favour of the later operation.  `supersedes newOp oldOp` says the later
`newOp` makes the earlier `oldOp` redundant. -/
def supersedes : WriteOperation → WriteOperation → Bool
  | .Put k _, .Put k2 _ => k == k2
  | .Put k _, .Delete k2 => k == k2
  | .Delete k, .Put k2 _ => k == k2
  | .Delete k, .Delete k2 => k == k2
  | .DeletePrefix p, .Put k _ => p.isPrefixOf k
  | .DeletePrefix p, .Delete k => p.isPrefixOf k
  | .DeletePrefix p, .DeletePrefix q => p.isPrefixOf q
  | .Put _ _, .DeletePrefix _ => false
  | .Delete _, .DeletePrefix _ => false

/-- Modelled from the spec: simplification keeps, for each key, only the
last operation affecting it (processing the batch in order and dropping
every earlier operation that a later one supersedes). -/
def Batch.simplify (batch : Batch) : Batch :=
  ⟨batch.operations.foldl
    (fun acc op => acc.filter (fun old => !(supersedes op old)) ++ [op]) []⟩

/-- Sequence a list of fallible elements, stopping at the first error: what
the `for` loop with the `?` operator observes. -/
def liftExcepts : List (Except DynamoDbContextError Bytes) →
    Except DynamoDbContextError (List Bytes)
  | [] => .ok []
  | .error e :: _ => .error e
  | .ok a :: rest =>
    match liftExcepts rest with
    | .ok tail2 => .ok (a :: tail2)
    | .error e => .error e

/-- The two lists accumulated by `write_batch` before submission, together
with the queries issued while expanding `DeletePrefix` operations. -/
structure ExpandResult where
  queries : List (Bytes × Option Bytes)
  delete_list : List Bytes
  insert_list : List (Bytes × Bytes)
  deriving DecidableEq, Repr

/-- The accumulation loop of `write_batch` over the simplified operations:
`Delete` pushes its key on the delete list, `Put` pushes its pair on the
insert list, and `DeletePrefix` drains a key-only scan for the prefix,
pushing `key_prefix ++ short_key` on the delete list for every yielded
suffix (propagating the first scan error, if any). -/
def expandOps (pageLimit fuel : Nat) (store : Store) :
    List WriteOperation → Except DynamoDbContextError ExpandResult
  | [] => .ok ⟨[], [], []⟩
  | .Delete key :: ops =>
    match expandOps pageLimit fuel store ops with
    | .ok ex => .ok ⟨ex.queries, key :: ex.delete_list, ex.insert_list⟩
    | .error e => .error e
  | .Put key value :: ops =>
    match expandOps pageLimit fuel store ops with
    | .ok ex => .ok ⟨ex.queries, ex.delete_list, (key, value) :: ex.insert_list⟩
    | .error e => .error e
  | .DeletePrefix keyPref :: ops =>
    match liftExcepts (drainKeys pageLimit fuel store keyPref).1 with
    | .error e => .error e
    | .ok suffixes =>
      match expandOps pageLimit fuel store ops with
      | .ok ex => .ok ⟨(drainKeys pageLimit fuel store keyPref).2 ++ ex.queries,
          suffixes.map (fun short_key => keyPref ++ short_key) ++ ex.delete_list,
          ex.insert_list⟩
      | .error e => .error e

/-- `slice::chunks(n)` bounded by an explicit recursion counter (any
counter at least the list length gives all chunks). -/
def chunksGo (n : Nat) : Nat → List α → List (List α)
  | 0, _ => []
  | _, [] => []
  | fuel + 1, l => l.take n :: chunksGo n fuel (l.drop n)

/-- `slice::chunks(n)`: split a list into consecutive chunks of `n`
elements (the last chunk may be shorter). -/
def chunks (n : Nat) (l : List α) : List (List α) :=
  chunksGo n l.length l

/-- The per-request item limit of `BatchWriteItem`
(`max_size_batch_write_item` in `write_batch`). -/
def max_size_batch_write_item : Nat := 25

/-- One network call issued by the adapter during `write_batch`: a range
query page (from `DeletePrefix` expansion) or one `BatchWriteItem` request
holding only delete requests or only put requests. -/
inductive NetworkCall where
  | query (keyPref : Bytes) (exclusive_start : Option Bytes)
  | batchDeleteItems (keys : List Bytes)
  | batchPutItems (items : List (Bytes × Bytes))
  deriving DecidableEq, Repr

/-- `DynamoDbClient::write_batch`: simplify the batch, expand it into the
delete and insert lists, then submit the delete list in chunks of at most
25 followed by the insert list in chunks of at most 25, one
`BatchWriteItem` call per chunk.  The embedding returns the sequence of
network calls issued. -/
def write_batch (pageLimit fuel : Nat) (store : Store) (batch : Batch) :
    Except DynamoDbContextError (List NetworkCall) :=
  match expandOps pageLimit fuel store batch.simplify.operations with
  | .error e => .error e
  | .ok ex => .ok
      (ex.queries.map (fun q => NetworkCall.query q.1 q.2)
        ++ (chunks max_size_batch_write_item ex.delete_list).map
            NetworkCall.batchDeleteItems
        ++ (chunks max_size_batch_write_item ex.insert_list).map
            NetworkCall.batchPutItems)

/-! ## Point reads and the effect of the calls on the service state -/

/-- The service side of `GetItem`: the stored item with the given sort key,
if any. -/
def get_item (store : Store) (key : Bytes) : Option AttrMap :=
  (store.find? (fun kv => kv.1 == key)).map (fun kv => kv.2)

/-- `KeyValueStoreClient::read_key_bytes` for `DynamoDbClient`: a `GetItem`
call, then `extract_value_owned` on the item when one came back. -/
def read_key_bytes (store : Store) (key : Bytes) :
    Except DynamoDbContextError (Option Bytes) :=
  match get_item store key with
  | some item =>
    match (extract_value_owned item).1 with
    | .ok value => .ok (some value)
    | .error e => .error e
  | none => .ok none

/-- The service state after a `DeleteRequest` for `key`: the item with that
sort key is removed. -/
def storeDeleteKey (store : Store) (key : Bytes) : Store :=
  store.filter (fun kv => !(kv.1 == key))

/-- The service state after a `PutRequest` of `build_key_value key value`:
the item replaces any item with the same sort key, kept in sort order. -/
def storePutItem (store : Store) (key value : Bytes) : Store :=
  match store with
  | [] => [(key, build_key_value key value)]
  | kv :: rest =>
    if bytesLt key kv.1 then (key, build_key_value key value) :: kv :: rest
    else if key == kv.1 then (key, build_key_value key value) :: rest
    else kv :: storePutItem rest key value

/-- The effect of one network call on the service state (queries and reads
leave it unchanged; the requests of one `BatchWriteItem` call apply in
order). -/
def applyCall (store : Store) : NetworkCall → Store
  | .query _ _ => store
  | .batchDeleteItems keys => keys.foldl storeDeleteKey store
  | .batchPutItems items =>
    items.foldl (fun st kv => storePutItem st kv.1 kv.2) store

/-- The service state after a sequence of calls. -/
def applyCalls (store : Store) (calls : List NetworkCall) : Store :=
  calls.foldl applyCall store

/-- The value of the last pair with the given key in a put list: the value
that survives when the puts are applied in order. -/
def lookupLast (items : List (Bytes × Bytes)) (key : Bytes) : Option Bytes :=
  match items with
  | [] => none
  | kv :: rest =>
    match lookupLast rest key with
    | some v => some v
    | none => if kv.1 == key then some kv.2 else none

/-- A batch of 40 puts on 40 distinct keys, above the 25-item limit. -/
def batch40 : Batch :=
  ⟨(List.range 40).map (fun i => WriteOperation.Put [i] [i, 1])⟩

/-- What `write_batch` accumulates for `batch40`: no queries, no deletes,
the 40 put pairs in order. -/
def ex40 : ExpandResult :=
  ⟨[], [], (List.range 40).map (fun i => ([i], [i, 1]))⟩

/-- The calls `write_batch` issues for `batch40`: two put chunks. -/
def calls40 : List NetworkCall :=
  ex40.queries.map (fun q => NetworkCall.query q.1 q.2)
    ++ (chunks 25 ex40.delete_list).map NetworkCall.batchDeleteItems
    ++ (chunks 25 ex40.insert_list).map NetworkCall.batchPutItems

/-- A two-item store for exercising `DeletePrefix` expansion. -/
def wstore3 : Store :=
  [([0, 1], build_key_value [0, 1] [9]), ([2], build_key_value [2] [8])]

/-- A batch of two prefix deletes: one matching a stored key, one matching
nothing. -/
def batchDP : Batch :=
  ⟨[.DeletePrefix [0], .DeletePrefix [5]]⟩

/-- A store holding two malformed items: one missing the value attribute,
one whose value attribute is a string rather than a binary blob. -/
def malformedStore : Store :=
  [([1], [(KEY_ATTRIBUTE, AttributeValue.B [1])]),
   ([2], [(KEY_ATTRIBUTE, AttributeValue.B [2]),
          (VALUE_ATTRIBUTE, AttributeValue.S "oops")])]

/-! ## Table lifecycle (`create_table_if_needed`) -/

/-- Status of a table at the creation time of a context (`TableStatus`). -/
inductive TableStatus where
  | New
  | Existing
  deriving DecidableEq, Repr

/-- The error kinds a `CreateTable` call can report at the service level
(`CreateTableErrorKind`); kinds other than `ResourceInUseException` are
collapsed into `Other`. -/
inductive CreateTableErrorKind where
  | ResourceInUseException
  | Other (description : String)
  deriving DecidableEq, Repr

/-- `SdkError<CreateTableError>`: a service-reported error, or a failure
below the service level (construction, timeout, dispatch, response). -/
inductive CreateTableSdkError where
  | ServiceError (kind : CreateTableErrorKind)
  | TransportFailure (description : String)
  deriving DecidableEq, Repr

/-- `IsResourceInUseException::is_resource_in_use_exception`: true exactly
for a service error whose kind is `ResourceInUseException`. -/
def is_resource_in_use_exception : CreateTableSdkError → Bool
  | .ServiceError .ResourceInUseException => true
  | _ => false

/-- `CreateTableError`: the error surfaced when creating the table fails. -/
inductive CreateTableError where
  | CreateTable (error : CreateTableSdkError)
  deriving DecidableEq, Repr

/-- `DynamoDbClient::create_table_if_needed`, as a function of the outcome
of the SDK create-table call: success becomes `TableStatus::New`, an
already-exists service error is recovered into `TableStatus::Existing`,
and every other failure is surfaced as `CreateTableError`. -/
def create_table_if_needed (result : Except CreateTableSdkError Unit) :
    Except CreateTableError TableStatus :=
  match result with
  | .ok _ => .ok .New
  | .error error =>
    if is_resource_in_use_exception error then .ok .Existing
    else .error (.CreateTable error)

/-! ## Table name validation (`TableName::from_str`) -/

/-- A DynamoDB table name (`TableName`), wrapping the validated string. -/
structure TableName where
  value : String
  deriving DecidableEq, Repr

/-- `InvalidTableName`.  The source documents `TooLong` as "at most 63
characters" and `InvalidCharacter` as "lowercase letters, numbers, periods
and hyphens". -/
inductive InvalidTableName where
  | TooShort
  | TooLong
  | InvalidCharacter
  deriving DecidableEq, Repr

/-- `TableName::from_str`.  Rust `str::len` is the UTF-8 byte length
(`String.utf8ByteSize` here), and `char::is_ascii_alphanumeric`
corresponds exactly to `Char.isAlphanum` (ASCII-only in Lean).  Note what
the code checks: length in [3, 255] — not the 63 of the `TooLong`
variant's own documentation — and any ASCII alphanumeric character — not
the lowercase-only set of the `InvalidCharacter` documentation. -/
def TableName.from_str (string : String) : Except InvalidTableName TableName :=
  if string.utf8ByteSize < 3 then .error .TooShort
  else if string.utf8ByteSize > 255 then .error .TooLong
  else if !(string.toList.all (fun character =>
      character.isAlphanum || character == '.' || character == '-'
        || character == '_')) then .error .InvalidCharacter
  else .ok ⟨string⟩

/-! ## Theorems -/

theorem bytesLt_irrefl : ∀ a : Bytes, bytesLt a a = false := by
  intro a
  induction a with
  | nil => rfl
  | cons x xs ih => simp [bytesLt, ih]

theorem bytesLt_asymm : ∀ a b : Bytes, bytesLt a b = true → bytesLt b a = false := by
  intro a
  induction a with
  | nil =>
    intro b h
    cases b with
    | nil => simp [bytesLt] at h
    | cons y ys => rfl
  | cons x xs ih =>
    intro b h
    cases b with
    | nil => simp [bytesLt] at h
    | cons y ys =>
      simp only [bytesLt, Bool.or_eq_true, Bool.and_eq_true, decide_eq_true_eq,
        beq_iff_eq] at h
      rcases h with h | ⟨rfl, h⟩
      · have h1 : ¬ (y < x) := by omega
        have h2 : ¬ (y = x) := by omega
        simp [bytesLt, h1, h2]
      · simp [bytesLt, ih ys h]

theorem bytesLt_trans :
    ∀ a b c : Bytes, bytesLt a b = true → bytesLt b c = true → bytesLt a c = true := by
  intro a
  induction a with
  | nil =>
    intro b c hab hbc
    cases b with
    | nil => simp [bytesLt] at hab
    | cons y ys =>
      cases c with
      | nil => simp [bytesLt] at hbc
      | cons z zs => rfl
  | cons x xs ih =>
    intro b c hab hbc
    cases b with
    | nil => simp [bytesLt] at hab
    | cons y ys =>
      cases c with
      | nil => simp [bytesLt] at hbc
      | cons z zs =>
        simp only [bytesLt, Bool.or_eq_true, Bool.and_eq_true, decide_eq_true_eq,
          beq_iff_eq] at hab hbc ⊢
        rcases hab with hab | ⟨rfl, hab⟩
        · rcases hbc with hbc | ⟨rfl, hbc⟩
          · exact Or.inl (by omega)
          · exact Or.inl hab
        · rcases hbc with hbc | ⟨rfl, hbc⟩
          · exact Or.inl hbc
          · exact Or.inr ⟨rfl, ih ys zs hab hbc⟩

/-! ## Supporting lemmas for the paginated scan -/

theorem project_keyOnly_bkv (k v : Bytes) :
    project .keyOnly (build_key_value k v) = [(KEY_ATTRIBUTE, .B k)] := rfl

theorem extract_key_projected (plen : Nat) (k v : Bytes) :
    extract_key plen (project .keyOnly (build_key_value k v)) = .ok (k.drop plen) := rfl

theorem extract_key_value_projected (plen : Nat) (k v : Bytes) :
    extract_key_value plen (project .keyValue (build_key_value k v))
      = .ok (k.drop plen, v) := rfl

theorem storedValue_bkv (k v : Bytes) : storedValue (build_key_value k v) = v := rfl

/-- In a strictly sorted list, the elements strictly above the `n`-th one
are exactly the elements past position `n`. -/
theorem sorted_filter_lt_getElem :
    ∀ (l : Store), l.Pairwise (fun a b => bytesLt a.1 b.1 = true) →
      ∀ (n : Nat) (hn : n < l.length),
        l.filter (fun kv => bytesLt l[n].1 kv.1) = l.drop (n + 1) := by
  intro l
  induction l with
  | nil => intro _ n hn; simp at hn
  | cons x t ih =>
    intro hp n hn
    have hx : ∀ b ∈ t, bytesLt x.1 b.1 = true := by
      intro b hb
      exact (List.pairwise_cons.mp hp).1 b hb
    have ht : t.Pairwise (fun a b => bytesLt a.1 b.1 = true) :=
      (List.pairwise_cons.mp hp).2
    cases n with
    | zero =>
      simp only [List.getElem_cons_zero, List.drop_succ_cons, List.drop_zero]
      rw [List.filter_cons_of_neg (by simp [bytesLt_irrefl])]
      exact List.filter_eq_self.mpr hx
    | succ n =>
      have hn2 : n < t.length := by simpa using hn
      have hmem : t[n] ∈ t := List.getElem_mem hn2
      have hxn : bytesLt t[n].1 x.1 = false := bytesLt_asymm _ _ (hx _ hmem)
      simp only [List.getElem_cons_succ, List.drop_succ_cons]
      rw [List.filter_cons_of_neg (by simp [hxn])]
      exact ih ht n hn2

/-- The last element of `l.take (n+1)` is `l[n]`. -/
theorem getLast?_take_succ :
    ∀ (l : Store) (n : Nat) (hn : n < l.length),
      (l.take (n + 1)).getLast? = some l[n] := by
  intro l
  induction l with
  | nil => intro n hn; simp at hn
  | cons x t ih =>
    intro n hn
    cases n with
    | zero => simp
    | succ n =>
      have hn2 : n < t.length := by simpa using hn
      cases t with
      | nil => simp at hn2
      | cons y t2 =>
        simpa [List.take_succ_cons] using ih n hn2

theorem matching_sorted (store : Store) (pre : Bytes) (hs : storeSorted store) :
    (matching store pre).Pairwise (fun a b => bytesLt a.1 b.1 = true) :=
  hs.filter _

theorem mem_matching_store {store : Store} {pre : Bytes} {kv : Bytes × AttrMap}
    (h : kv ∈ matching store pre) : kv ∈ store :=
  List.mem_of_mem_filter h

/-- Driving the key cursor yields one `Ok` element per remaining match, in
table order, after which the sequence ends. -/
theorem keyIterRun_yields (pageLimit : Nat) (store : Store) (pre : Bytes)
    (hs : storeSorted store) (hw : storeWellFormed store) (hL : 1 ≤ pageLimit) :
    ∀ (fuel : Nat) (R1 R2 : Store) (s : DynamoDbKeyIterator),
      s.keyPrefix = pre → s.prefixLen = pre.length →
      s.rest = R1.map (fun kv => project .keyOnly kv.2) →
      (∀ kv ∈ R1, kv ∈ matching store pre) →
      tokenInv store pre s.responseLast R2 →
      (R1 ++ R2).length < fuel →
      (keyIterRun pageLimit store fuel s).1
        = (R1 ++ R2).map (fun kv => Except.ok (kv.1.drop pre.length)) := by
  intro fuel
  induction fuel with
  | zero =>
    intro R1 R2 s _ _ _ _ _ hlen
    exact absurd hlen (Nat.not_lt_zero _)
  | succ fuel ih =>
    intro R1 R2 s hpre hplen hrest hmem htok hlen
    obtain ⟨kp, pl, rl, rst⟩ := s
    simp only at hpre hplen hrest htok
    subst hpre hplen hrest
    cases rl with
    | none =>
      have hR2 : R2 = [] := htok
      subst hR2
      cases R1 with
      | nil => simp [keyIterRun, keyIterNext]
      | cons kv R1t =>
        have hkvmem : kv ∈ matching store kp := hmem kv (by simp)
        have hkv2 := hw kv (mem_matching_store hkvmem)
        have hrec := ih R1t [] ⟨kp, kp.length, none,
            R1t.map (fun kv => project .keyOnly kv.2)⟩ rfl rfl rfl
          (fun kv2 h2 => hmem kv2 (by simp [h2])) rfl
          (by simp only [List.append_nil, List.length_cons] at hlen ⊢; omega)
        simp only [keyIterRun, keyIterNext, List.map_cons, List.append_nil] at hrec ⊢
        rw [hkv2, extract_key_projected, hrec]
    | some tok =>
      cases R1 with
      | cons kv R1t =>
        have hkvmem : kv ∈ matching store kp := hmem kv (by simp)
        have hkv2 := hw kv (mem_matching_store hkvmem)
        have hrec := ih R1t R2 ⟨kp, kp.length, some tok,
            R1t.map (fun kv => project .keyOnly kv.2)⟩ rfl rfl rfl
          (fun kv2 h2 => hmem kv2 (by simp [h2])) htok
          (by simp only [List.length_append, List.length_cons] at hlen ⊢; omega)
        simp only [keyIterRun, keyIterNext, List.map_cons, List.cons_append] at hrec ⊢
        rw [hkv2, extract_key_projected, hrec]
      | nil =>
        have hR2 : R2 = (matching store kp).filter (fun kv => bytesLt tok kv.1) := htok
        subst hR2
        cases hfil : (matching store kp).filter (fun kv => bytesLt tok kv.1) with
        | nil =>
          simp [keyIterRun, keyIterNext, get_query_output, hfil]
        | cons x xs =>
          obtain ⟨Lm, rfl⟩ : ∃ Lm, pageLimit = Lm + 1 := ⟨pageLimit - 1, by omega⟩
          rw [hfil] at hlen
          have hxmem : x ∈ matching store kp := by
            have hxf : x ∈ (matching store kp).filter (fun kv => bytesLt tok kv.1) := by
              simp [hfil]
            exact List.mem_of_mem_filter hxf
          have hx2 := hw x (mem_matching_store hxmem)
          have hsortfil : (x :: xs).Pairwise (fun a b => bytesLt a.1 b.1 = true) := by
            rw [← hfil]; exact (matching_sorted store kp hs).filter _
          by_cases hml : (x :: xs).length ≤ Lm + 1
          · -- final page: no further token is returned
            have htake : (x :: xs).take (Lm + 1) = x :: xs :=
              List.take_of_length_le hml
            have hrec := ih xs [] ⟨kp, kp.length, none,
                xs.map (fun kv => project .keyOnly kv.2)⟩ rfl rfl rfl
              (fun kv2 h2 => by
                have h3 : kv2 ∈ (matching store kp).filter
                    (fun kv => bytesLt tok kv.1) := by simp [hfil, h2]
                exact List.mem_of_mem_filter h3)
              rfl
              (by
                simp only [List.append_nil, List.nil_append, List.length_cons] at hlen ⊢
                omega)
            simp only [List.append_nil] at hrec
            simp only [keyIterRun, keyIterNext, get_query_output, hfil, htake,
              List.map_cons, List.map_nil, List.nil_append, hml, if_true]
            rw [hx2, extract_key_projected, hrec]
          · -- further matches remain: a token is returned and carried forward
            have hLm : Lm < (x :: xs).length := by omega
            have htokmem : (x :: xs)[Lm] ∈ (x :: xs) := List.getElem_mem hLm
            have htoklt : bytesLt tok ((x :: xs)[Lm]).1 = true := by
              have h5 : (x :: xs)[Lm] ∈ (matching store kp).filter
                  (fun kv => bytesLt tok kv.1) := by rw [hfil]; exact htokmem
              exact (List.mem_filter.mp h5).2
            have hcongr : (matching store kp).filter
                  (fun kv => bytesLt ((x :: xs)[Lm]).1 kv.1)
                = ((matching store kp).filter (fun kv => bytesLt tok kv.1)).filter
                    (fun kv => bytesLt ((x :: xs)[Lm]).1 kv.1) := by
              rw [List.filter_filter]
              apply List.filter_congr
              intro kv _
              cases hb : bytesLt ((x :: xs)[Lm]).1 kv.1 with
              | false => simp [hb]
              | true => simp [hb, bytesLt_trans _ _ _ htoklt hb]
            have hdrop : (matching store kp).filter
                  (fun kv => bytesLt ((x :: xs)[Lm]).1 kv.1)
                = xs.drop Lm := by
              rw [hcongr, hfil, sorted_filter_lt_getElem _ hsortfil Lm hLm,
                List.drop_succ_cons]
            have hlast : (x :: xs.take Lm).getLast? = some ((x :: xs)[Lm]) := by
              rw [← List.take_succ_cons]
              exact getLast?_take_succ _ Lm hLm
            have hrec := ih (xs.take Lm)
                ((matching store kp).filter (fun kv => bytesLt ((x :: xs)[Lm]).1 kv.1))
                ⟨kp, kp.length, some ((x :: xs)[Lm]).1,
                  (xs.take Lm).map (fun kv => project .keyOnly kv.2)⟩ rfl rfl rfl
              (fun kv2 h2 => by
                have h3 : kv2 ∈ xs := List.take_subset _ _ h2
                have h4 : kv2 ∈ (matching store kp).filter
                    (fun kv => bytesLt tok kv.1) := by simp [hfil, h3]
                exact List.mem_of_mem_filter h4)
              rfl
              (by
                rw [hdrop]
                have h4 : Lm ≤ xs.length := by
                  simp only [List.length_cons] at hml; omega
                simp only [List.length_append, List.length_take, List.length_drop,
                  List.nil_append, List.length_cons] at hlen ⊢
                omega)
            rw [hdrop] at hrec
            simp only [keyIterRun, keyIterNext, get_query_output, hfil,
              List.take_succ_cons, List.map_cons, List.map_nil, hml, if_false,
              hlast, Option.map_some', List.nil_append]
            rw [hx2, extract_key_projected, hrec, List.take_append_drop]

/-- Fully consuming `find_keys_by_prefix(pre)` yields one `Ok` element per
stored key beginning with `pre` (the key's suffix past the prefix), in
ascending table order. -/
theorem drainKeys_yields (pageLimit fuel : Nat) (store : Store) (pre : Bytes)
    (hs : storeSorted store) (hw : storeWellFormed store) (hL : 1 ≤ pageLimit)
    (hfuel : (matching store pre).length < fuel) :
    (drainKeys pageLimit fuel store pre).1
      = (matching store pre).map (fun kv => Except.ok (kv.1.drop pre.length)) := by
  by_cases hml : (matching store pre).length ≤ pageLimit
  · have htake : (matching store pre).take pageLimit = matching store pre :=
      List.take_of_length_le hml
    have h := keyIterRun_yields pageLimit store pre hs hw hL fuel
        (matching store pre) []
        ⟨pre, pre.length, none,
          (matching store pre).map (fun kv => project .keyOnly kv.2)⟩
        rfl rfl rfl (fun _ h2 => h2) rfl (by simpa using hfuel)
    simp only [List.append_nil] at h
    simp only [drainKeys, keysIterator, find_keys_by_pfx, get_query_output,
      hml, if_true, htake]
    exact h
  · obtain ⟨Lm, rfl⟩ : ∃ Lm, pageLimit = Lm + 1 := ⟨pageLimit - 1, by omega⟩
    have hLm : Lm < (matching store pre).length := by omega
    have hsort : (matching store pre).Pairwise (fun a b => bytesLt a.1 b.1 = true) :=
      matching_sorted store pre hs
    have hdrop : (matching store pre).filter
          (fun kv => bytesLt ((matching store pre)[Lm]).1 kv.1)
        = (matching store pre).drop (Lm + 1) :=
      sorted_filter_lt_getElem _ hsort Lm hLm
    have hlast : ((matching store pre).take (Lm + 1)).getLast?
        = some ((matching store pre)[Lm]) := getLast?_take_succ _ Lm hLm
    have h := keyIterRun_yields (Lm + 1) store pre hs hw hL fuel
        ((matching store pre).take (Lm + 1))
        ((matching store pre).filter
          (fun kv => bytesLt ((matching store pre)[Lm]).1 kv.1))
        ⟨pre, pre.length, some ((matching store pre)[Lm]).1,
          ((matching store pre).take (Lm + 1)).map (fun kv => project .keyOnly kv.2)⟩
        rfl rfl rfl (fun _ h2 => List.take_subset _ _ h2) rfl
        (by
          rw [hdrop]
          simp only [List.length_append, List.length_take, List.length_drop]
          omega)
    rw [hdrop, List.take_append_drop] at h
    simp only [drainKeys, keysIterator, find_keys_by_pfx, get_query_output,
      hml, if_false, hlast, Option.map_some']
    exact h

/-- Fully consuming `find_key_values_by_prefix(pre)` yields exactly the
matching key-value pairs of the first page: no continuation query is ever
issued, so at most `pageLimit` pairs appear. -/
theorem keyValuesIterate_first_page (pageLimit : Nat) (store : Store) (pre : Bytes)
    (hw : storeWellFormed store) :
    keyValuesIterate (find_key_values_by_pfx pageLimit store pre)
      = ((matching store pre).take pageLimit).map
          (fun kv => Except.ok (kv.1.drop pre.length, storedValue kv.2)) := by
  simp only [keyValuesIterate, find_key_values_by_pfx, get_query_output,
    List.map_map]
  apply List.map_congr_left
  intro kv hkv
  have hkv2 := hw kv (mem_matching_store (List.take_subset _ _ hkv))
  calc (fun m => extract_key_value pre.length m)
        ((fun kv => project .keyValue kv.2) kv)
      = extract_key_value pre.length
          (project .keyValue (build_key_value kv.1 (storedValue kv.2))) := by
        rw [← hkv2]
    _ = Except.ok (kv.1.drop pre.length, storedValue kv.2) :=
        extract_key_value_projected pre.length kv.1 (storedValue kv.2)

/-- C1 (amended): for every stored set of well-formed items and every byte
prefix `pre`, the lazy sequence of `find_keys_by_prefix(pre)` yields exactly
the stored keys beginning with `pre` (as suffixes past the prefix), each
exactly once, in ascending lexicographic order, regardless of how many
service pages are needed; a `next` call on an exhausted page with no
continuation token ends the sequence without a query, while an exhausted
page with a token makes `next` issue a new query carrying that token.
`find_key_values_by_prefix(pre)`, however, yields exactly the matching
key-value pairs of the FIRST page only and never issues a continuation
query. -/
theorem find_by_prefix_scan_exact (pageLimit fuel : Nat) (store : Store)
    (pre : Bytes) (hs : storeSorted store) (hw : storeWellFormed store)
    (hL : 1 ≤ pageLimit) (hfuel : (matching store pre).length < fuel) :
    (drainKeys pageLimit fuel store pre).1
        = (matching store pre).map (fun kv => Except.ok (kv.1.drop pre.length))
    ∧ keyValuesIterate (find_key_values_by_pfx pageLimit store pre)
        = ((matching store pre).take pageLimit).map
            (fun kv => Except.ok (kv.1.drop pre.length, storedValue kv.2))
    ∧ (∀ s : DynamoDbKeyIterator, s.rest = [] → s.responseLast = none →
        keyIterNext pageLimit store s = ⟨none, s, none⟩)
    ∧ (∀ (s : DynamoDbKeyIterator) (tok : Bytes), s.rest = [] →
        s.responseLast = some tok →
        (keyIterNext pageLimit store s).issued = some (s.keyPrefix, some tok)) := by
  refine ⟨drainKeys_yields pageLimit fuel store pre hs hw hL hfuel,
    keyValuesIterate_first_page pageLimit store pre hw, ?_, ?_⟩
  · intro s h1 h2
    obtain ⟨a, b, c, d⟩ := s
    simp only at h1 h2
    subst h1 h2
    rfl
  · intro s tok h1 h2
    obtain ⟨a, b, c, d⟩ := s
    simp only at h1 h2
    subst h1 h2
    cases hq : (get_query_output pageLimit store .keyOnly a (some tok)).items with
    | nil => simp [keyIterNext, hq]
    | cons x xs => simp [keyIterNext, hq]

/-- C1 counterexample: with two stored keys and a page limit of 1, the
key-value sequence of `find_key_values_by_prefix` does not yield the two
matching stored pairs — the claim's assertion for
`find_key_values_by_prefix` fails at this input. -/
theorem find_key_values_single_page_cex :
    keyValuesIterate (find_key_values_by_pfx 1 cexStore [])
      ≠ (matching cexStore []).map
          (fun kv => Except.ok (kv.1.drop ([] : Bytes).length, storedValue kv.2)) := by
  decide

/-- C1 witness: the amended theorem applied to a concrete three-item store
scanned with page limit 2 (two pages needed). -/
theorem find_by_prefix_scan_exact_witness :
    storeSorted w1store ∧ storeWellFormed w1store ∧ 1 ≤ 2
    ∧ (matching w1store []).length < 4
    ∧ (drainKeys 2 4 w1store []).1
        = (matching w1store []).map
            (fun kv => Except.ok (kv.1.drop ([] : Bytes).length)) :=
  ⟨by decide, by decide, by decide, by decide,
   (find_by_prefix_scan_exact 2 4 w1store [] (by decide) (by decide) (by decide)
      (by decide)).1⟩

/-! ## Supporting lemmas for the batched writer -/

theorem chunksGo_join (n : Nat) (hn : 0 < n) :
    ∀ (fuel : Nat) (l : List α), l.length ≤ fuel → (chunksGo n fuel l).flatten = l := by
  intro fuel
  induction fuel with
  | zero =>
    intro l hl
    have h0 : l = [] := List.eq_nil_of_length_eq_zero (by omega)
    subst h0
    rfl
  | succ fuel ih =>
    intro l hl
    cases l with
    | nil => rfl
    | cons x xs =>
      simp only [chunksGo, List.flatten_cons]
      rw [ih ((x :: xs).drop n)
        (by simp only [List.length_drop, List.length_cons] at hl ⊢; omega)]
      exact List.take_append_drop n (x :: xs)

theorem chunks_join (n : Nat) (hn : 0 < n) (l : List α) : (chunks n l).flatten = l :=
  chunksGo_join n hn l.length l (Nat.le_refl _)

theorem chunksGo_mem_length (n : Nat) :
    ∀ (fuel : Nat) (l : List α) (c : List α), c ∈ chunksGo n fuel l → c.length ≤ n := by
  intro fuel
  induction fuel with
  | zero => intro l c h; simp [chunksGo] at h
  | succ fuel ih =>
    intro l c h
    cases l with
    | nil => simp [chunksGo] at h
    | cons x xs =>
      simp only [chunksGo, List.mem_cons] at h
      rcases h with rfl | h
      · exact List.length_take_le n (x :: xs)
      · exact ih _ c h

theorem chunks_mem_length (n : Nat) (l c : List α) (h : c ∈ chunks n l) :
    c.length ≤ n :=
  chunksGo_mem_length n l.length l c h

theorem liftExcepts_map_ok (l : List Bytes) :
    liftExcepts (l.map Except.ok) = .ok l := by
  induction l with
  | nil => rfl
  | cons x xs ih => simp [liftExcepts, ih]

theorem get_item_storePutItem_self (store : Store) (key value : Bytes) :
    get_item (storePutItem store key value) key
      = some (build_key_value key value) := by
  induction store with
  | nil => simp [storePutItem, get_item]
  | cons kv rest ih =>
    simp only [storePutItem]
    cases h1 : bytesLt key kv.1 with
    | true => simp [get_item, h1]
    | false =>
      cases h2 : key == kv.1 with
      | true => simp [get_item, h1, h2]
      | false =>
        have h3 : (kv.1 == key) = false := by
          rw [beq_eq_false_iff_ne] at h2 ⊢
          exact fun hh => h2 hh.symm
        simpa [get_item, h1, h2, h3] using ih

theorem get_item_storePutItem_ne (store : Store) (key value k2 : Bytes)
    (h : k2 ≠ key) :
    get_item (storePutItem store key value) k2 = get_item store k2 := by
  have hkey : (key == k2) = false := by
    rw [beq_eq_false_iff_ne]
    exact fun hh => h hh.symm
  induction store with
  | nil => simp [storePutItem, get_item, hkey]
  | cons kv rest ih =>
    simp only [storePutItem]
    cases h1 : bytesLt key kv.1 with
    | true => simp [get_item, hkey]
    | false =>
      cases h2 : key == kv.1 with
      | true =>
        have h4 : kv.1 = key := (eq_of_beq h2).symm
        have h5 : (kv.1 == k2) = false := by rw [h4]; exact hkey
        simp [get_item, hkey, h5]
      | false =>
        cases h6 : kv.1 == k2 with
        | true => simp [get_item, h6]
        | false => simpa [get_item, h6] using ih

theorem get_item_storeDeleteKey_self (store : Store) (key : Bytes) :
    get_item (storeDeleteKey store key) key = none := by
  have hfind : (store.filter (fun kv => !(kv.1 == key))).find?
      (fun kv => kv.1 == key) = none := by
    rw [List.find?_eq_none]
    intro x hx
    have h2 := (List.mem_filter.mp hx).2
    simp only [Bool.not_eq_eq_eq_not, Bool.not_true] at h2
    simp [h2]
  simp [get_item, storeDeleteKey, hfind]

theorem get_item_cons_of_ne {kv : Bytes × AttrMap} {rest : Store} {k2 : Bytes}
    (h : (kv.1 == k2) = false) :
    get_item (kv :: rest) k2 = get_item rest k2 := by
  unfold get_item
  rw [List.find?_cons_of_neg]
  simp [h]

theorem get_item_storeDeleteKey_ne (store : Store) (key k2 : Bytes)
    (h : k2 ≠ key) :
    get_item (storeDeleteKey store key) k2 = get_item store k2 := by
  induction store with
  | nil => rfl
  | cons kv rest ih =>
    simp only [storeDeleteKey, List.filter_cons]
    cases h1 : kv.1 == key with
    | true =>
      have h4 : kv.1 = key := eq_of_beq h1
      have h5 : (kv.1 == k2) = false := by
        rw [beq_eq_false_iff_ne, h4]
        exact fun hh => h (hh.symm)
      rw [Bool.not_true, if_neg (by simp), get_item_cons_of_ne h5]
      exact ih
    | false =>
      rw [Bool.not_false, if_pos rfl]
      cases h6 : kv.1 == k2 with
      | true =>
        unfold get_item
        rw [List.find?_cons_of_pos, List.find?_cons_of_pos]
        all_goals simp [h6]
      | false =>
        rw [get_item_cons_of_ne h6, get_item_cons_of_ne h6]
        exact ih

theorem get_item_deleteFold (keys : List Bytes) :
    ∀ (store : Store) (k : Bytes),
      get_item (keys.foldl storeDeleteKey store) k
        = if k ∈ keys then none else get_item store k := by
  induction keys with
  | nil => intro store k; simp
  | cons key keys ih =>
    intro store k
    simp only [List.foldl_cons, ih, List.mem_cons]
    by_cases hk : k = key
    · subst hk
      by_cases h2 : k ∈ keys
      · simp [h2]
      · simp [h2, get_item_storeDeleteKey_self]
    · by_cases h2 : k ∈ keys
      · simp [h2, hk]
      · simp [h2, hk, get_item_storeDeleteKey_ne store key k hk]

theorem get_item_putFold (items : List (Bytes × Bytes)) :
    ∀ (store : Store) (k : Bytes),
      get_item (items.foldl (fun st kv => storePutItem st kv.1 kv.2) store) k
        = match lookupLast items k with
          | some v => some (build_key_value k v)
          | none => get_item store k := by
  induction items with
  | nil => intro store k; simp [lookupLast]
  | cons kv rest ih =>
    intro store k
    simp only [List.foldl_cons, ih, lookupLast]
    cases hl : lookupLast rest k with
    | some v => simp
    | none =>
      cases h2 : kv.1 == k with
      | true =>
        have h3 : kv.1 = k := eq_of_beq h2
        simp [h3, get_item_storePutItem_self]
      | false =>
        have h3 : k ≠ kv.1 := by
          rw [beq_eq_false_iff_ne] at h2
          exact fun hh => h2 hh.symm
        simp [get_item_storePutItem_ne store kv.1 kv.2 k h3]

theorem applyCalls_append (store : Store) (c1 c2 : List NetworkCall) :
    applyCalls store (c1 ++ c2) = applyCalls (applyCalls store c1) c2 := by
  simp [applyCalls, List.foldl_append]

theorem applyCalls_queries (qs : List (Bytes × Option Bytes)) :
    ∀ store : Store,
      applyCalls store (qs.map (fun q => NetworkCall.query q.1 q.2)) = store := by
  induction qs with
  | nil => intro store; rfl
  | cons q qs ih => intro store; simpa [applyCalls, applyCall] using ih store

theorem applyCalls_deleteChunks (cs : List (List Bytes)) :
    ∀ store : Store,
      applyCalls store (cs.map NetworkCall.batchDeleteItems)
        = cs.flatten.foldl storeDeleteKey store := by
  induction cs with
  | nil => intro store; rfl
  | cons c cs ih =>
    intro store
    simp only [List.map_cons, List.flatten_cons, List.foldl_append, applyCalls,
      List.foldl_cons]
    exact ih (c.foldl storeDeleteKey store)

theorem applyCalls_putChunks (cs : List (List (Bytes × Bytes))) :
    ∀ store : Store,
      applyCalls store (cs.map NetworkCall.batchPutItems)
        = cs.flatten.foldl (fun st kv => storePutItem st kv.1 kv.2) store := by
  induction cs with
  | nil => intro store; rfl
  | cons c cs ih =>
    intro store
    simp only [List.map_cons, List.flatten_cons, List.foldl_append, applyCalls,
      List.foldl_cons]
    exact ih (c.foldl (fun st kv => storePutItem st kv.1 kv.2) store)

theorem liftExcepts_map_ok2 (g : (Bytes × AttrMap) → Bytes) (l : Store) :
    liftExcepts (l.map (fun kv => Except.ok (g kv))) = .ok (l.map g) := by
  induction l with
  | nil => rfl
  | cons x xs ih => simp [liftExcepts, ih]

/-- C2: every batch surviving expansion is submitted as the delete keys in
chunks of at most 25, followed by the puts in chunks of at most 25, each
chunk one `BatchWriteItem` call, deletes before puts, with no key lost to
chunking; applying the calls leaves every put key mapped to its last put
value, every remaining delete key absent, and everything else untouched. -/
theorem write_batch_chunked (pageLimit fuel : Nat) (store : Store) (batch : Batch)
    (ex : ExpandResult)
    (hex : expandOps pageLimit fuel store batch.simplify.operations = .ok ex) :
    max_size_batch_write_item = 25
    ∧ write_batch pageLimit fuel store batch = .ok
        (ex.queries.map (fun q => NetworkCall.query q.1 q.2)
          ++ (chunks 25 ex.delete_list).map NetworkCall.batchDeleteItems
          ++ (chunks 25 ex.insert_list).map NetworkCall.batchPutItems)
    ∧ (∀ c ∈ chunks 25 ex.delete_list, c.length ≤ 25)
    ∧ (∀ c ∈ chunks 25 ex.insert_list, c.length ≤ 25)
    ∧ (chunks 25 ex.delete_list).flatten = ex.delete_list
    ∧ (chunks 25 ex.insert_list).flatten = ex.insert_list
    ∧ ∀ (calls : List NetworkCall) (k : Bytes),
        write_batch pageLimit fuel store batch = .ok calls →
        get_item (applyCalls store calls) k
          = match lookupLast ex.insert_list k with
            | some v => some (build_key_value k v)
            | none =>
              if k ∈ ex.delete_list then none else get_item store k := by
  have hwb : write_batch pageLimit fuel store batch = .ok
      (ex.queries.map (fun q => NetworkCall.query q.1 q.2)
        ++ (chunks 25 ex.delete_list).map NetworkCall.batchDeleteItems
        ++ (chunks 25 ex.insert_list).map NetworkCall.batchPutItems) := by
    unfold write_batch
    rw [hex]
    rfl
  refine ⟨rfl, hwb, fun c hc => chunks_mem_length 25 _ c hc,
    fun c hc => chunks_mem_length 25 _ c hc,
    chunks_join 25 (by omega) _, chunks_join 25 (by omega) _, ?_⟩
  intro calls k hcalls
  have hceq : (ex.queries.map (fun q => NetworkCall.query q.1 q.2)
      ++ (chunks 25 ex.delete_list).map NetworkCall.batchDeleteItems
      ++ (chunks 25 ex.insert_list).map NetworkCall.batchPutItems) = calls :=
    Except.ok.inj (hwb.symm.trans hcalls)
  subst hceq
  rw [applyCalls_append, applyCalls_append, applyCalls_queries,
    applyCalls_deleteChunks, applyCalls_putChunks,
    chunks_join 25 (by omega), chunks_join 25 (by omega),
    get_item_putFold, get_item_deleteFold]

/-- C2 witness: the chunking theorem applied to a 40-put batch over the
empty store; the 40th key is readable afterwards. -/
theorem write_batch_chunked_witness :
    expandOps 1 1 ([] : Store) batch40.simplify.operations = .ok ex40
    ∧ write_batch 1 1 ([] : Store) batch40 = .ok calls40
    ∧ (chunks 25 ex40.insert_list).flatten = ex40.insert_list
    ∧ get_item (applyCalls ([] : Store) calls40) [39]
        = some (build_key_value [39] [39, 1]) :=
  ⟨by decide,
   (write_batch_chunked 1 1 [] batch40 ex40 (by decide)).2.1,
   (write_batch_chunked 1 1 [] batch40 ex40 (by decide)).2.2.2.2.2.1,
   (write_batch_chunked 1 1 [] batch40 ex40 (by decide)).2.2.2.2.2.2 calls40 [39]
     (by decide)⟩

/-- C5: executing `write_batch` on a batch `Put(k,v1); Delete(k); Put(k,v2)`
leaves `k` mapped to `v2`: the batch is simplified to the last write before
submission, and reading `k` back afterwards returns `v2`. -/
theorem write_batch_last_write_wins (pageLimit fuel : Nat) (store : Store)
    (k v1 v2 : Bytes) :
    ∃ calls,
      write_batch pageLimit fuel store
          ⟨[.Put k v1, .Delete k, .Put k v2]⟩ = .ok calls
      ∧ read_key_bytes (applyCalls store calls) k = .ok (some v2) := by
  have hsimp : (Batch.mk [WriteOperation.Put k v1, WriteOperation.Delete k,
      WriteOperation.Put k v2]).simplify = ⟨[.Put k v2]⟩ := by
    simp [Batch.simplify, supersedes]
  refine ⟨[NetworkCall.batchPutItems [(k, v2)]], ?_, ?_⟩
  · unfold write_batch
    rw [hsimp]
    rfl
  · have h1 : applyCalls store [NetworkCall.batchPutItems [(k, v2)]]
        = storePutItem store k v2 := rfl
    rw [h1]
    unfold read_key_bytes
    rw [get_item_storePutItem_self]
    rfl

/-- The expansion of the simplified operations, with `DeletePrefix`
contributions made explicit: every `DeletePrefix` contributes exactly the
full stored keys matching the prefix. -/
theorem expandOps_delete_list (pageLimit fuel : Nat) (store : Store)
    (hs : storeSorted store) (hw : storeWellFormed store) (hL : 1 ≤ pageLimit)
    (hfuel : store.length < fuel) :
    ∀ ops : List WriteOperation,
      ∃ ex : ExpandResult,
        expandOps pageLimit fuel store ops = .ok ex
        ∧ ex.delete_list = ops.flatMap (fun op =>
            match op with
            | .Delete key => [key]
            | .Put _ _ => []
            | .DeletePrefix keyPref =>
              (matching store keyPref).map (fun kv => kv.1)) := by
  intro ops
  induction ops with
  | nil => exact ⟨⟨[], [], []⟩, rfl, rfl⟩
  | cons op ops ih =>
    obtain ⟨ex, hex, hdl⟩ := ih
    cases op with
    | Delete key =>
      refine ⟨⟨ex.queries, key :: ex.delete_list, ex.insert_list⟩, ?_, ?_⟩
      · simp [expandOps, hex]
      · simp [hdl]
    | Put key value =>
      refine ⟨⟨ex.queries, ex.delete_list, (key, value) :: ex.insert_list⟩, ?_, ?_⟩
      · simp [expandOps, hex]
      · simp [hdl]
    | DeletePrefix keyPref =>
      have hmfuel : (matching store keyPref).length < fuel :=
        lt_of_le_of_lt (List.length_filter_le _ _) hfuel
      have hdrain := drainKeys_yields pageLimit fuel store keyPref hs hw hL hmfuel
      have hlift : liftExcepts (drainKeys pageLimit fuel store keyPref).1
          = .ok ((matching store keyPref).map
              (fun kv => kv.1.drop keyPref.length)) := by
        rw [hdrain]
        exact liftExcepts_map_ok2 _ _
      have hkeys : ((matching store keyPref).map
            (fun kv => kv.1.drop keyPref.length)).map
              (fun short_key => keyPref ++ short_key)
          = (matching store keyPref).map (fun kv => kv.1) := by
        rw [List.map_map]
        apply List.map_congr_left
        intro kv hkv
        have hpref : keyPref.isPrefixOf kv.1 = true := (List.mem_filter.mp hkv).2
        obtain ⟨t, ht⟩ := List.isPrefixOf_iff_prefix.mp hpref
        show keyPref ++ kv.1.drop keyPref.length = kv.1
        rw [← ht, List.drop_left]
      refine ⟨⟨(drainKeys pageLimit fuel store keyPref).2 ++ ex.queries,
        ((matching store keyPref).map (fun kv => kv.1.drop keyPref.length)).map
            (fun short_key => keyPref ++ short_key) ++ ex.delete_list,
        ex.insert_list⟩, ?_, ?_⟩
      · simp [expandOps, hlift, hex]
      · simp [hkeys, hdl]

/-- C3: every `DeletePrefix(prefix)` surviving simplification is expanded
by a key-only scan into the full keys `prefix ++ suffix` of all stored
matching keys, appended to the delete-key list (so a prefix matching zero
stored keys contributes no deletes), and `write_batch` issues all scan
queries before any delete call. -/
theorem write_batch_delete_prefix_expansion (pageLimit fuel : Nat)
    (store : Store) (batch : Batch) (hs : storeSorted store)
    (hw : storeWellFormed store) (hL : 1 ≤ pageLimit)
    (hfuel : store.length < fuel) :
    ∃ ex : ExpandResult,
      expandOps pageLimit fuel store batch.simplify.operations = .ok ex
      ∧ ex.delete_list = batch.simplify.operations.flatMap (fun op =>
          match op with
          | .Delete key => [key]
          | .Put _ _ => []
          | .DeletePrefix keyPref =>
            (matching store keyPref).map (fun kv => kv.1))
      ∧ write_batch pageLimit fuel store batch = .ok
          (ex.queries.map (fun q => NetworkCall.query q.1 q.2)
            ++ (chunks max_size_batch_write_item ex.delete_list).map
                NetworkCall.batchDeleteItems
            ++ (chunks max_size_batch_write_item ex.insert_list).map
                NetworkCall.batchPutItems) := by
  obtain ⟨ex, hex, hdl⟩ := expandOps_delete_list pageLimit fuel store hs hw hL
    hfuel batch.simplify.operations
  refine ⟨ex, hex, hdl, ?_⟩
  unfold write_batch
  rw [hex]

/-- C3 witness: the expansion theorem applied to `wstore3` and `batchDP`;
the surviving delete list is the single full key `[0, 1]` and the empty
prefix `[5]` contributes nothing. -/
theorem write_batch_delete_prefix_expansion_witness :
    storeSorted wstore3 ∧ storeWellFormed wstore3 ∧ 1 ≤ 1
    ∧ wstore3.length < 3
    ∧ ∃ ex : ExpandResult,
        expandOps 1 3 wstore3 batchDP.simplify.operations = .ok ex
        ∧ ex.delete_list = batchDP.simplify.operations.flatMap (fun op =>
            match op with
            | .Delete key => [key]
            | .Put _ _ => []
            | .DeletePrefix keyPref =>
              (matching wstore3 keyPref).map (fun kv => kv.1))
        ∧ write_batch 1 3 wstore3 batchDP = .ok
            (ex.queries.map (fun q => NetworkCall.query q.1 q.2)
              ++ (chunks max_size_batch_write_item ex.delete_list).map
                  NetworkCall.batchDeleteItems
              ++ (chunks max_size_batch_write_item ex.insert_list).map
                  NetworkCall.batchPutItems) :=
  ⟨by decide, by decide, by decide, by decide,
   write_batch_delete_prefix_expansion 1 3 wstore3 batchDP (by decide) (by decide)
     (by decide) (by decide)⟩

/-! ## The read path (`read_key_bytes`) -/

/-- C4: `read_key_bytes` returns `Ok(None)` exactly when no item with the
key is stored; a stored item missing the value attribute fails with
`MissingValue`, and a stored item whose value attribute is not a binary
blob fails with `WrongValueType` naming the stored type — never a silent
`None`. -/
theorem read_key_bytes_none_iff_absent (store : Store) (key : Bytes) :
    (read_key_bytes store key = .ok none ↔ ∀ kv ∈ store, kv.1 ≠ key)
    ∧ (∀ item, get_item store key = some item →
        AttrMap.get item VALUE_ATTRIBUTE = none →
        read_key_bytes store key = .error .MissingValue)
    ∧ (∀ item v, get_item store key = some item →
        AttrMap.get item VALUE_ATTRIBUTE = some v → isBinaryAttr v = false →
        read_key_bytes store key = .error (.WrongValueType
          (type_description_of v))) := by
  refine ⟨⟨?_, ?_⟩, ?_, ?_⟩
  · intro h
    cases hgi : get_item store key with
    | none =>
      intro kv hkv hk
      have hfind : store.find? (fun kv => kv.1 == key) = none := by
        unfold get_item at hgi
        cases hf : store.find? (fun kv => kv.1 == key) with
        | none => rfl
        | some x => rw [hf] at hgi; simp at hgi
      have := List.find?_eq_none.mp hfind kv hkv
      simp [hk] at this
    | some item =>
      unfold read_key_bytes at h
      rw [hgi] at h
      cases hev : (extract_value_owned item).1 with
      | ok value => simp [hev] at h
      | error e => simp [hev] at h
  · intro h
    have hfind : store.find? (fun kv => kv.1 == key) = none :=
      List.find?_eq_none.mpr (fun x hx => by simp [h x hx])
    have hgi : get_item store key = none := by simp [get_item, hfind]
    simp [read_key_bytes, hgi]
  · intro item hgi hval
    simp only [read_key_bytes, hgi, extract_value_owned, hval]
  · intro item v hgi hval hbin
    simp only [read_key_bytes, hgi, extract_value_owned, hval]
    cases v with
    | B blob => simp [isBinaryAttr] at hbin
    | Bool b => rfl
    | Bs blobs => rfl
    | L => rfl
    | M => rfl
    | N num => rfl
    | Ns nums => rfl
    | Null b => rfl
    | S str => rfl
    | Ss strs => rfl
    | Unknown => rfl

/-- C4 witness: the classification applied to the malformed store — the
item missing its value attribute fails with `MissingValue`, the
string-valued item fails with `WrongValueType "a string"`, and an absent
key reads as `Ok(None)`. -/
theorem read_key_bytes_none_iff_absent_witness :
    read_key_bytes malformedStore [1] = .error .MissingValue
    ∧ read_key_bytes malformedStore [2]
        = .error (.WrongValueType "a string")
    ∧ read_key_bytes malformedStore [3] = .ok none :=
  ⟨(read_key_bytes_none_iff_absent malformedStore [1]).2.1
      [(KEY_ATTRIBUTE, AttributeValue.B [1])] (by decide) (by decide),
   (read_key_bytes_none_iff_absent malformedStore [2]).2.2
      [(KEY_ATTRIBUTE, AttributeValue.B [2]),
       (VALUE_ATTRIBUTE, AttributeValue.S "oops")]
      (AttributeValue.S "oops") (by decide) (by decide) (by decide),
   (read_key_bytes_none_iff_absent malformedStore [3]).1.mpr (by decide)⟩

/-- C10: when the value attribute is present but not a binary blob,
`extract_value_owned` removes the attribute from the map and then returns
the `WrongValueType` error — the map is mutated on the error path, so a
retry on the same map sees `MissingValue` instead. -/
theorem extract_value_owned_mutates_on_error (m : AttrMap) (v : AttributeValue)
    (hget : AttrMap.get m VALUE_ATTRIBUTE = some v)
    (hbin : isBinaryAttr v = false) :
    extract_value_owned m
        = (.error (.WrongValueType (type_description_of v)),
           m.removeAttr VALUE_ATTRIBUTE)
    ∧ (extract_value_owned (m.removeAttr VALUE_ATTRIBUTE)).1
        = .error .MissingValue := by
  have hrem : AttrMap.get (m.removeAttr VALUE_ATTRIBUTE) VALUE_ATTRIBUTE
      = none := by
    have hfind : (m.filter (fun p => !(p.1 == VALUE_ATTRIBUTE))).find?
        (fun p => p.1 == VALUE_ATTRIBUTE) = none := by
      rw [List.find?_eq_none]
      intro x hx
      have h2 := (List.mem_filter.mp hx).2
      simp only [Bool.not_eq_eq_eq_not, Bool.not_true] at h2
      simp [h2]
    simp [AttrMap.get, AttrMap.removeAttr, hfind]
  constructor
  · unfold extract_value_owned
    rw [hget]
    cases v with
    | B blob => simp [isBinaryAttr] at hbin
    | Bool b => rfl
    | Bs blobs => rfl
    | L => rfl
    | M => rfl
    | N num => rfl
    | Ns nums => rfl
    | Null b => rfl
    | S str => rfl
    | Ss strs => rfl
    | Unknown => rfl
  · unfold extract_value_owned
    rw [hrem]

/-- C10 witness: the mutation theorem applied to a one-attribute map whose
value attribute is a string; the error carries the map with the attribute
already removed, and retrying on that map reports `MissingValue`. -/
theorem extract_value_owned_mutates_on_error_witness :
    AttrMap.get [(VALUE_ATTRIBUTE, AttributeValue.S "boom")] VALUE_ATTRIBUTE
        = some (AttributeValue.S "boom")
    ∧ extract_value_owned [(VALUE_ATTRIBUTE, AttributeValue.S "boom")]
        = (.error (.WrongValueType "a string"), [])
    ∧ (extract_value_owned ([] : AttrMap)).1 = .error .MissingValue :=
  ⟨by decide,
   (extract_value_owned_mutates_on_error
      [(VALUE_ATTRIBUTE, AttributeValue.S "boom")] (AttributeValue.S "boom")
      (by decide) (by decide)).1,
   (extract_value_owned_mutates_on_error
      [(VALUE_ATTRIBUTE, AttributeValue.S "boom")] (AttributeValue.S "boom")
      (by decide) (by decide)).2⟩

/-- C6: `create_table_if_needed` classifies every outcome of the
create-table call: success yields `New`; a `ResourceInUseException`
service error is recovered locally into `Existing` (and nothing else
yields `Existing`); every other failure is surfaced as
`CreateTableError`. -/
theorem create_table_if_needed_classification
    (result : Except CreateTableSdkError Unit) :
    (result = .ok () → create_table_if_needed result = .ok .New)
    ∧ (∀ e, result = .error e → is_resource_in_use_exception e = true →
        create_table_if_needed result = .ok .Existing)
    ∧ (∀ e, result = .error e → is_resource_in_use_exception e = false →
        create_table_if_needed result = .error (.CreateTable e))
    ∧ (create_table_if_needed result = .ok .Existing ↔
        result = .error (.ServiceError .ResourceInUseException)) := by
  refine ⟨?_, ?_, ?_, ?_⟩
  · intro h
    subst h
    rfl
  · intro e h hres
    subst h
    simp [create_table_if_needed, hres]
  · intro e h hres
    subst h
    simp [create_table_if_needed, hres]
  · cases result with
    | ok u => simp [create_table_if_needed]
    | error e =>
      cases e with
      | ServiceError kind =>
        cases kind with
        | ResourceInUseException =>
          simp [create_table_if_needed, is_resource_in_use_exception]
        | Other description =>
          simp [create_table_if_needed, is_resource_in_use_exception]
      | TransportFailure description =>
        simp [create_table_if_needed, is_resource_in_use_exception]

/-- C6 witness: the classification applied to a success, the
already-exists error, and a transport failure. -/
theorem create_table_if_needed_classification_witness :
    create_table_if_needed (.ok ()) = .ok .New
    ∧ create_table_if_needed (.error (.ServiceError .ResourceInUseException))
        = .ok .Existing
    ∧ create_table_if_needed (.error (.TransportFailure "boom"))
        = .error (.CreateTable (.TransportFailure "boom")) :=
  ⟨(create_table_if_needed_classification (.ok ())).1 rfl,
   (create_table_if_needed_classification
      (.error (.ServiceError .ResourceInUseException))).2.1
      (.ServiceError .ResourceInUseException) rfl rfl,
   (create_table_if_needed_classification
      (.error (.TransportFailure "boom"))).2.2.1
      (.TransportFailure "boom") rfl rfl⟩

set_option maxRecDepth 4000 in
/-- C7: the code accepts a 64-character name — `from_str` checks the
length against 255, not the 63 stated by the claim and by the `TooLong`
variant's own documentation; only a name longer than 255 bytes fails with
`TooLong`. -/
theorem table_name_64_accepted :
    TableName.from_str (String.mk (List.replicate 64 'a'))
        = .ok ⟨String.mk (List.replicate 64 'a')⟩
    ∧ TableName.from_str (String.mk (List.replicate 256 'a'))
        = .error .TooLong
    ∧ TableName.from_str (String.mk (List.replicate 255 'a'))
        = .ok ⟨String.mk (List.replicate 255 'a')⟩ := by
  refine ⟨?_, ?_, ?_⟩ <;> decide

/-- C8: the code accepts uppercase letters — `from_str` uses
`is_ascii_alphanumeric`, which includes `A`–`Z`, contradicting the claim
and the `InvalidCharacter` variant's own documentation; a character
outside the alphanumeric-plus-`.`/`-`/`_` set does fail with
`InvalidCharacter`. -/
theorem table_name_uppercase_accepted :
    TableName.from_str "ABC" = .ok ⟨"ABC"⟩
    ∧ TableName.from_str "ab!" = .error .InvalidCharacter := by
  refine ⟨?_, ?_⟩ <;> decide

/-- C9: the key/value codec round-trips — decoding a built key strips the
partition attribute and returns exactly the suffix past the prefix length,
and decoding a built item returns exactly the stored value. -/
theorem codec_round_trip (k v : Bytes) (p : Nat) (_hp : p ≤ k.length) :
    extract_key p (build_key k) = .ok (k.drop p)
    ∧ extract_value (build_key_value k v) = .ok v :=
  ⟨rfl, rfl⟩

/-- C9 witness: the round trip at a three-byte key, prefix length 1. -/
theorem codec_round_trip_witness :
    1 ≤ ([1, 2, 3] : Bytes).length
    ∧ extract_key 1 (build_key [1, 2, 3]) = .ok [2, 3]
    ∧ extract_value (build_key_value [1, 2, 3] [9]) = .ok [9] :=
  ⟨by decide,
   (codec_round_trip [1, 2, 3] [9] 1 (by decide)).1,
   (codec_round_trip [1, 2, 3] [9] 1 (by decide)).2⟩

end DynamoDb
